import Mathlib

/-!
Verification of the core engine of the NHL-API-Python-Scraper repository:
a shallow embedding of the helper functions in `generalFunctions.py`
(path access, record filtering, cayenne expression compilation, the
resilient request loop) together with the pagination loop of
`nhlAPIscraper.get_stats` and the multi-key record sort of
`nhlAPIscraper.get_players`, plus theorems settling the specified
properties of those functions.

Python values are modelled by the inductive type `Json` (numbers as
integers; the claims under study do not exercise float arithmetic).
Python exceptions are modelled with `Except PyErr`.  Python's built-in
string functions are re-implemented over character lists so that all
definitions reduce inside the kernel.
-/

namespace NhlScraper

/-! ### String helpers (kernel-reducible models of Python `str` methods) -/

/-- Split a character list on a single separator character.
Mirrors Python `str.split(sep)` for a one-character separator:
`"".split(".") = [""]`, `"a..b".split(".") = ["a","","b"]`. -/
def splitOnCharAux (sep : Char) : List Char → List Char → List (List Char)
  | [], cur => [cur.reverse]
  | c :: rest, cur =>
    if c = sep then cur.reverse :: splitOnCharAux sep rest []
    else splitOnCharAux sep rest (c :: cur)

/-- Model of Python `key.split(".")`. -/
def splitDot (s : String) : List String :=
  (splitOnCharAux '.' s.data []).map (fun l => String.mk l)

/-- Model of Python `s.upper()` (ASCII). -/
def upperStr (s : String) : String := String.mk (s.data.map Char.toUpper)

/-- Model of Python `sep.join(parts)`. -/
def joinWith (sep : String) : List String → String
  | [] => ""
  | p :: rest => rest.foldl (fun acc q => acc ++ sep ++ q) p

/-- Whether `pre` is a leading segment of `l`. -/
def startsWithChars : List Char → List Char → Bool
  | [], _ => true
  | _ :: _, [] => false
  | a :: as, b :: bs => a = b && startsWithChars as bs

/-- Whether `sub` occurs inside `l` (substring test on character lists). -/
def hasSubChars (sub : List Char) : List Char → Bool
  | [] => startsWithChars sub []
  | c :: rest => startsWithChars sub (c :: rest) || hasSubChars sub rest

/-- Model of Python `sub in s` for strings (substring containment). -/
def strHasSub (s sub : String) : Bool := hasSubChars sub.data s.data

/-! ### The JSON data model -/

/-- Model of the loosely-typed Python values the engine operates on.
Numbers are modelled as integers: the claims under study never exercise
float-specific behaviour. -/
inductive Json where
  | null
  | bool (b : Bool)
  | num (n : Int)
  | str (s : String)
  | arr (elems : List Json)
  | obj (fields : List (String × Json))

/-- Model of the Python exceptions the embedded code can raise. -/
inductive PyErr where
  | attributeError
  | typeError
  | valueError
  | keyError
deriving DecidableEq

mutual
/-- Model of Python `==` on `Json` values.  Python compares `bool` and
numbers numerically (`True == 1`).  Python dict equality ignores field
order; this model compares field lists in order, which is faithful for
every comparison the scraper performs (its filter criteria compare
scalars and lists of scalars only). -/
def pyEq : Json → Json → Bool
  | .null, .null => true
  | .bool a, .bool b => a == b
  | .bool a, .num n => (if a then (1 : Int) else 0) == n
  | .num n, .bool b => n == (if b then (1 : Int) else 0)
  | .num a, .num b => a == b
  | .str a, .str b => a == b
  | .arr a, .arr b => pyEqList a b
  | .obj a, .obj b => pyEqFields a b
  | _, _ => false
/-- Elementwise `pyEq` on lists. -/
def pyEqList : List Json → List Json → Bool
  | [], [] => true
  | x :: xs, y :: ys => pyEq x y && pyEqList xs ys
  | _, _ => false
/-- Elementwise `pyEq` on field lists. -/
def pyEqFields : List (String × Json) → List (String × Json) → Bool
  | [], [] => true
  | (k1, v1) :: xs, (k2, v2) :: ys => k1 == k2 && pyEq v1 v2 && pyEqFields xs ys
  | _, _ => false
end

/-- Model of Python truthiness (`bool(v)`): `None`, `False`, `0`, `""`,
`[]` and `{}` are falsy, everything else is truthy. -/
def truthy : Json → Bool
  | .null => false
  | .bool b => b
  | .num n => n != 0
  | .str s => !s.data.isEmpty
  | .arr l => !l.isEmpty
  | .obj l => !l.isEmpty

mutual
/-- Model of Python `repr(v)` (string escaping inside quotes is not
modelled; the scraper only formats plain alphanumeric values). -/
def pyRepr : Json → String
  | .null => "None"
  | .bool b => if b then "True" else "False"
  | .num n => toString n
  | .str s => "'" ++ s ++ "'"
  | .arr l => "[" ++ joinWith (", ") (pyReprList l) ++ "]"
  | .obj l => "\x7b" ++ joinWith (", ") (pyReprFields l) ++ "\x7d"
/-- Reprs of the elements of a list. -/
def pyReprList : List Json → List String
  | [] => []
  | x :: xs => pyRepr x :: pyReprList xs
/-- Reprs of the fields of a dict. -/
def pyReprFields : List (String × Json) → List String
  | [] => []
  | (k, v) :: xs => ("'" ++ k ++ "': " ++ pyRepr v) :: pyReprFields xs
end

/-- Model of Python `str(v)` as used in f-string interpolation. -/
def pyStr : Json → String
  | .str s => s
  | v => pyRepr v

/-- Model of Python `int(v)`: ints pass through, bools become 0/1,
numeric strings are parsed, anything else raises. -/
def pyInt : Json → Except PyErr Int
  | .num n => .ok n
  | .bool b => .ok (if b then 1 else 0)
  | .str s =>
    match s.toInt? with
    | some n => .ok n
    | none => .error .valueError
  | _ => .error .typeError

/-- Model of Python `x in l` for a list `l`. -/
def pyMem (x : Json) (l : List Json) : Bool := l.any (fun e => pyEq x e)

/-! ### PathAccessor: `get_nested_value` (generalFunctions.py lines 90-104)

```python
def get_nested_value(data, key):
    keys = key.split(".")
    for k in keys:
        data = data.get(k, {})
    return data if data else None
```
-/

/-- First-match association lookup, the model of Python dict key access
(dict keys are unique so first-match agrees with dict semantics). -/
def lookupField : List (String × Json) → String → Option Json
  | [], _ => none
  | (k, v) :: rest, key => if k = key then some v else lookupField rest key

/-- Model of `data.get(k, {})`.  Python's `dict.get` exists only on
dicts: on any non-dict receiver the attribute access raises
`AttributeError`. -/
def dictGetDefault (data : Json) (k : String) : Except PyErr Json :=
  match data with
  | .obj fields => .ok ((lookupField fields k).getD (.obj []))
  | _ => .error .attributeError

/-- The traversal loop of `get_nested_value` before the final
truthiness test. -/
def nestedWalk (data : Json) : List String → Except PyErr Json
  | [] => .ok data
  | k :: rest =>
    match dictGetDefault data k with
    | .ok d => nestedWalk d rest
    | .error e => .error e

/-- Model of `get_nested_value` including the final
`return data if data else None`. -/
def get_nested_value (data : Json) (key : String) : Except PyErr Json :=
  match nestedWalk data (splitDot key) with
  | .ok v => .ok (if truthy v then v else .null)
  | .error e => .error e

/-- Paths along which `get_nested_value`'s traversal only ever calls
`.get` on a dict: every segment found in the data leads to a mapping,
and a missing segment switches the traversal to the safe `{}` default. -/
def mapsOnly : Json → List String → Bool
  | _, [] => true
  | .obj fields, k :: rest =>
    match lookupField fields k with
    | some v => mapsOnly v rest
    | none => true
  | _, _ :: _ => false

/-! ### ViewProjector: `filter_view` (generalFunctions.py lines 64-88)

```python
def filter_view(data, view, validation=False):
    if not view:
        return data
    for field in view.split("."):
        if validation and field not in data:
            raise ValueError(...)
        elif not validation and field not in data:
            return None
        data = data[field]
    return data
```
-/

/-- Model of Python `field in data` for an arbitrary value `data`:
key test on dicts, membership on lists, substring test on strings,
`TypeError` on non-container values. -/
def pyContains (data : Json) (field : String) : Except PyErr Bool :=
  match data with
  | .obj fields => .ok (!(lookupField fields field).isNone)
  | .arr elems => .ok (pyMem (.str field) elems)
  | .str s => .ok (strHasSub s field)
  | _ => .error .typeError

/-- Model of Python `data[field]` for a string subscript: field access
on dicts, `TypeError` on every other value (lists and strings reject
string subscripts). -/
def pyIndexStr (data : Json) (field : String) : Except PyErr Json :=
  match data with
  | .obj fields =>
    match lookupField fields field with
    | some v => .ok v
    | none => .error .keyError
  | _ => .error .typeError

/-- The per-segment loop of `filter_view`. -/
def filter_view_go (validation : Bool) : Json → List String → Except PyErr Json
  | data, [] => .ok data
  | data, f :: rest =>
    match pyContains data f with
    | .error e => .error e
    | .ok c =>
      if validation && !c then .error .valueError
      else if !validation && !c then .ok .null
      else
        match pyIndexStr data f with
        | .error e => .error e
        | .ok d => filter_view_go validation d rest

/-- Model of `filter_view`.  The Python `return None` for a missing
field is `Json.null`, which is also what an explicit null in the data
would produce. -/
def filter_view (data : Json) (view : String) (validation : Bool) : Except PyErr Json :=
  if view.data.isEmpty then .ok data
  else filter_view_go validation data (splitDot view)

/-! ### RecordFilter: `filter_json_data` (generalFunctions.py lines 106-134)

```python
def filter_json_data(data, filters, exclude=False):
    if not filters:
        return data
    filtered_data = [
        item for item in data
        if exclude ^ all(
            (get_nested_value(item, key) == value if value is not None
               else get_nested_value(item, key) is None) or
            (isinstance(value, list) and get_nested_value(item, key) in value)
            for key, value in filters.items())
    ]
    return filtered_data
```
-/

/-- One criterion of the generator inside `filter_json_data`: equality
against a non-null filter value, the `is None` test for a null filter
value, or membership when the filter value is a list. -/
def criterionHolds (item : Json) (k : String) (v : Json) : Except PyErr Bool :=
  match get_nested_value item k with
  | .error e => .error e
  | .ok r =>
    let first : Bool :=
      match v with
      | .null => (match r with | .null => true | _ => false)
      | _ => pyEq r v
    let second : Bool :=
      match v with
      | .arr l => pyMem r l
      | _ => false
    .ok (first || second)

/-- The `all(...)` over the filter criteria, short-circuiting on the
first criterion that is false (as the Python generator does). -/
def allCriteria (item : Json) : List (String × Json) → Except PyErr Bool
  | [] => .ok true
  | (k, v) :: rest =>
    match criterionHolds item k v with
    | .error e => .error e
    | .ok b => if b then allCriteria item rest else .ok false

/-- The list comprehension of `filter_json_data`: keep items for which
`exclude ^ all(criteria)` is true. -/
def filterItems (exclude : Bool) (filters : List (String × Json)) :
    List Json → Except PyErr (List Json)
  | [] => .ok []
  | it :: rest =>
    match allCriteria it filters with
    | .error e => .error e
    | .ok b =>
      match filterItems exclude filters rest with
      | .error e => .error e
      | .ok out => .ok (if xor exclude b then it :: out else out)

/-- Model of `filter_json_data`.  A falsy `filters` mapping (empty dict
or `None`) returns the data unchanged. -/
def filter_json_data (data : List Json) (filters : List (String × Json))
    (exclude : Bool) : Except PyErr (List Json) :=
  if filters.isEmpty then .ok data else filterItems exclude filters data

/-! ### ExpressionCompiler: `construct_cayenne_exp`
(generalFunctions.py lines 168-232) and `format_date` (lines 270-276) -/

/-- Decimal value of a digit list. -/
def natOfDigits (l : List Char) : Nat :=
  l.foldl (fun n c => 10 * n + (c.toNat - 48)) 0

/-- Day count of a month, with the Gregorian leap rule. -/
def daysInMonth (y m : Nat) : Nat :=
  if m = 2 then
    if y % 4 = 0 && (y % 100 ≠ 0 || y % 400 = 0) then 29 else 28
  else if m = 4 || m = 6 || m = 9 || m = 11 then 30
  else 31

/-- Model of `format_date`: `strptime(s, "%Y-%m-%d")` followed by
`strftime("%Y-%m-%d")`, which is the identity on a valid zero-padded
`YYYY-MM-DD` string and raises `ValueError` otherwise.  (Python's
lenient parsing of non-padded fields is not modelled; the scraper's
call sites pass padded dates.) -/
def format_date (s : String) : Except PyErr String :=
  match splitOnCharAux '-' s.data [] with
  | [ys, ms, ds] =>
    if ys.length = 4 && ms.length = 2 && ds.length = 2
        && (ys ++ ms ++ ds).all Char.isDigit then
      let m := natOfDigits ms
      let d := natOfDigits ds
      if 1 ≤ m && m ≤ 12 && 1 ≤ d && d ≤ daysInMonth (natOfDigits ys) m then
        .ok s
      else .error .valueError
    else .error .valueError
  | _ => .error .valueError

/-- The predicate appended for one keyword argument of
`construct_cayenne_exp`: `none` when Python appends nothing (null
value, unknown key, or a `position` value that is neither a string nor
a list). -/
def cayenneKwargPart (k : String) (v : Json) : Except PyErr (Option String) :=
  match v with
  | .null => .ok none
  | _ =>
    if k = "game_type" then .ok (some ("gameTypeId=" ++ pyStr v))
    else if k = "franchise_id" then
      match pyInt v with
      | .ok n => .ok (some ("franchiseId=" ++ toString n))
      | .error e => .error e
    else if k = "opponent_franchise_id" then
      match pyInt v with
      | .ok n => .ok (some ("opponentFranchiseId=" ++ toString n))
      | .error e => .error e
    else if k = "home_or_road" then .ok (some ("homeRoad='" ++ pyStr v ++ "'"))
    else if k = "game_result" then .ok (some ("decision='" ++ pyStr v ++ "'"))
    else if k = "position" then
      match v with
      | .str s => .ok (some ("positionCode='" ++ s ++ "'"))
      | .arr l =>
        .ok (some ("(" ++
          joinWith (" or ") (l.map (fun pos => "positionCode='" ++ pyStr pos ++ "'"))
          ++ ")"))
      | _ => .ok none
    else if k = "player_name" then
      .ok (some ("skaterFullName likeIgnoreCase '%" ++ pyStr v ++ "%'"))
    else if k = "is_rookie" then
      .ok (some ("isRookie=" ++ (if truthy v then "1" else "0")))
    else if k = "is_active" then
      .ok (some ("active=" ++ (if truthy v then "1" else "0")))
    else if k = "is_in_hall_of_fame" then
      .ok (some ("isInHallOfFame=" ++ (if truthy v then "1" else "0")))
    else if k = "birth_state_province_code" then
      .ok (some ("birthStateProvinceCode='" ++ pyStr v ++ "'"))
    else if k = "nationality_code" then
      .ok (some ("nationalityCode='" ++ pyStr v ++ "'"))
    else if k = "shoots_catches" then
      .ok (some ("shootsCatches='" ++ pyStr v ++ "'"))
    else if k = "draft_round" then .ok (some ("draftRound=" ++ pyStr v))
    else if k = "draft_year" then .ok (some ("draftYear='" ++ pyStr v ++ "'"))
    else .ok none

/-- The parts contributed by the `default_kwargs` loop, in dict
insertion order. -/
def kwargParts : List (String × Json) → Except PyErr (List String)
  | [] => .ok []
  | (k, v) :: rest =>
    match cayenneKwargPart k v with
    | .error e => .error e
    | .ok none => kwargParts rest
    | .ok (some s) =>
      match kwargParts rest with
      | .error e => .error e
      | .ok l => .ok (s :: l)

/-- Model of `construct_cayenne_exp`.  The three selection branches are
tried in order (season range, then date range, then single season);
when none applies no selection part is emitted and no error is raised.
The final string is `" and ".join(parts)`. -/
def construct_cayenne_exp (start_season end_season start_date end_date season : Option String)
    (default_kwargs : List (String × Json)) : Except PyErr String :=
  let sel : Except PyErr (List String) :=
    match start_season, end_season with
    | some s1, some s2 => .ok (["seasonId<=" ++ s2 ++ " and seasonId>=" ++ s1])
    | _, _ =>
      match start_date, end_date with
      | some d1, some d2 =>
        match format_date d1 with
        | .error e => .error e
        | .ok f1 =>
          match format_date d2 with
          | .error e => .error e
          | .ok f2 => .ok (["gameDate<='" ++ f2 ++ "' and gameDate>='" ++ f1 ++ "'"])
      | _, _ =>
        match season with
        | some s => .ok (["seasonId=" ++ s])
        | none => .ok []
  match sel with
  | .error e => .error e
  | .ok selParts =>
    match kwargParts default_kwargs with
    | .error e => .error e
    | .ok kparts => .ok (joinWith (" and ") (selParts ++ kparts))

/-! ### ResilientRequester: `make_api_request`
(generalFunctions.py lines 13-62)

```python
for attempt in range(retries):
    try:
        response = session.get(url, timeout=timeout)
        response.raise_for_status()
        if not response.content:
            return None
        if return_json:
            return response.json()
        else:
            return response.text
    except requests.exceptions.RequestException as e:
        if attempt < retries - 1:
            delay = (2 ** attempt) * backoff
            time.sleep(delay)
        else:
            return None
return None
```
-/

/-- Outcome of one `session.get` + `raise_for_status` try-block:
a transport-level failure (`requests.exceptions.RequestException`:
connection error, timeout or non-2xx status), an empty 2xx body, or a
2xx body whose decoded payload is `j`. -/
inductive AttemptOutcome where
  | success (j : Json)
  | emptyBody
  | transportError

/-- Observable behaviour of one `make_api_request` call: the returned
value (`none` models Python `None`), the number of GET attempts
performed, and the list of back-off delays slept, in order.  Delays are
rationals: the float product `(2 ** attempt) * backoff` is exact
because scaling by a power of two only adjusts the exponent. -/
structure ReqTrace where
  result : Option Json
  attempts : Nat
  sleeps : List ℚ

/-- The body of `for attempt in range(retries)`, iterating over the
remaining attempt indices.  The environment is abstracted as `oracle`,
giving the outcome of each attempt.  Falling off the loop (empty index
list) returns `None` with no further attempt. -/
def apiLoopGo (oracle : Nat → AttemptOutcome) (retries : Nat) (backoff : ℚ) :
    List Nat → ReqTrace
  | [] => ⟨none, 0, []⟩
  | attempt :: rest =>
    match oracle attempt with
    | .success j => ⟨some j, 1, []⟩
    | .emptyBody => ⟨none, 1, []⟩
    | .transportError =>
      if attempt < retries - 1 then
        let t := apiLoopGo oracle retries backoff rest
        ⟨t.result, t.attempts + 1, ((2 : ℚ) ^ attempt * backoff) :: t.sleeps⟩
      else ⟨none, 1, []⟩

/-- Model of `make_api_request` (the retry loop; the optional input
validation raises only on mistyped parameters, which the typed
embedding cannot express). -/
def make_api_request (oracle : Nat → AttemptOutcome) (retries : Nat) (backoff : ℚ) :
    ReqTrace :=
  apiLoopGo oracle retries backoff (List.range retries)

/-! ### PaginatedCollector: the `get_stats` loop
(nhlAPIscraper.py lines 1148-1158)

```python
all_data = []
while True:
    url = ...
    data = make_api_request(url, ...)
    if data is None:
        return None
    all_data.extend(data.get("data", []))
    if len(all_data) >= data.get("total", 0):
        break
    params["start"] = str(len(all_data))
```
-/

/-- A page envelope: `data.get("data", [])` and `data.get("total", 0)`
of one response. -/
structure Page (α : Type) where
  data : List α
  total : Nat

/-- Result of the pagination loop.  `fuelOut` is an artifact of the
embedding: the Python `while True` loop simply does not terminate in
the situations the fuel bound excludes. -/
inductive CollectResult (α : Type) where
  | done (records : List α)
  | absent
  | fuelOut

/-- The pagination loop.  `page s` is the response to the request with
`start=s` (`none` models `make_api_request` returning `None`); the next
start is always the accumulator length. -/
def get_stats_loop (page : Nat → Option (Page α)) : Nat → List α → CollectResult α
  | 0, _ => .fuelOut
  | fuel + 1, acc =>
    match page acc.length with
    | none => .absent
    | some p =>
      let acc2 := acc ++ p.data
      if p.total ≤ acc2.length then .done acc2
      else get_stats_loop page fuel acc2

/-! ### SortSpec: the multi-key sort of `get_players`
(nhlAPIscraper.py lines 405-409)

```python
if sort:
    sort, direction = ([sort], [direction]) if isinstance(sort, str) else (sort, direction)
    for s, d in reversed(list(zip(sort, direction))):
        reverse = d.upper() == 'DESC'
        data.sort(key=lambda x: (x.get(s) is None, x.get(s)), reverse=reverse)
```

Records are dicts whose sorted fields hold mutually comparable values;
they are modelled as association lists over a linearly ordered value
type (`none` as a stored value models an explicit JSON null).  Python's
`list.sort` is a stable sort; it is modelled by a stable insertion
sort, which computes the same list (for a total preorder comparator,
sortedness plus stability determine the output uniquely). -/

/-- A record: a dict from field names to nullable comparable values. -/
def Rec (α : Type) : Type := List (String × Option α)

/-- Model of Python `x.get(s)`: `None` both for a missing key and for a
stored null. -/
def recGet (x : Rec α) (s : String) : Option α :=
  match x with
  | [] => none
  | (k, v) :: rest => if k = s then v else recGet rest s

/-- The sort key `(x.get(s) is None, x.get(s))`. -/
def pyKey (s : String) (x : Rec α) : Bool × Option α :=
  ((recGet x s).isNone, recGet x s)

/-- Nonstrict order on the second key component (`none` least; two
`none`s compare equal, as Python tuple comparison never compares the
second components when the first differ). -/
def optLe [LinearOrder α] : Option α → Option α → Bool
  | none, _ => true
  | some _, none => false
  | some a, some b => a ≤ b

/-- Nonstrict lexicographic order on Python sort keys
(`False < True` on the first component). -/
def keyLe [LinearOrder α] (k1 k2 : Bool × Option α) : Bool :=
  if k1.1 = k2.1 then optLe k1.2 k2.2 else (!k1.1 && k2.1)

/-- The comparator of one sort pass: `x` may precede `y`.  With
`reverse=True` (direction `DESC` after upper-casing) the comparison is
flipped; stability is unaffected, as in Python. -/
def cmpOf [LinearOrder α] (s d : String) (x y : Rec α) : Bool :=
  if upperStr d == "DESC" then keyLe (pyKey s y) (pyKey s x)
  else keyLe (pyKey s x) (pyKey s y)

/-- Insert `x` into a sorted list, after every element `y` with
`le y x` — so after all elements tied with `x`, which is exactly the
placement a stable sort gives a later-arriving element. -/
def insPass (le : α → α → Bool) (x : α) : List α → List α
  | [] => [x]
  | y :: ys => if le y x then y :: insPass le x ys else x :: y :: ys

/-- Stable sort by the nonstrict comparator `le` (insertion sort,
processing elements in their original order). -/
def stableSortBy (le : α → α → Bool) (l : List α) : List α :=
  l.foldl (fun acc x => insPass le x acc) []

/-- Successive stable sort passes, least-significant comparator first. -/
def multiPass (cs : List (α → α → Bool)) (l : List α) : List α :=
  cs.foldl (fun acc c => stableSortBy c acc) l

/-- Model of the `get_players` sort loop: one stable sort pass per
`(field, direction)` pair, iterated over `reversed(list(zip(...)))` so
the first-listed field is sorted last and dominates. -/
def applySorts [LinearOrder α] (sort direction : List String) (data : List (Rec α)) :
    List (Rec α) :=
  ((sort.zip direction).reverse).foldl
    (fun acc sd => stableSortBy (cmpOf sd.1 sd.2) acc) data

/-! ### Theorems about the retry loop (claim C1) -/

/-- One failing non-final iteration of the retry loop: one more
attempt, one sleep of `2^a * b`, then the rest of the loop. -/
theorem apiLoopGo_failStep (oracle : Nat → AttemptOutcome) (N : Nat) (b : ℚ)
    (a : Nat) (rest : List Nat) (hfa : oracle a = .transportError) (hlt : a < N - 1) :
    apiLoopGo oracle N b (a :: rest) =
      ⟨(apiLoopGo oracle N b rest).result, (apiLoopGo oracle N b rest).attempts + 1,
        (2 : ℚ) ^ a * b :: (apiLoopGo oracle N b rest).sleeps⟩ := by
  simp [apiLoopGo, hfa, hlt]

/-- On a run where every attempt fails at transport level, the loop over
the remaining attempt indices `a, a+1, ..., N-1` performs one GET per
index, sleeps `2^i * backoff` after every index except the last, and
returns `None`. -/
theorem apiLoopGo_allFail (oracle : Nat → AttemptOutcome) (N : Nat) (b : ℚ)
    (hfail : ∀ k, oracle k = .transportError) :
    ∀ (k a : Nat), 1 ≤ k → a + k = N →
      apiLoopGo oracle N b (List.range' a k) =
        ⟨none, k, (List.range' a (k - 1)).map (fun i => (2 : ℚ) ^ i * b)⟩ := by
  intro k
  induction k with
  | zero => omega
  | succ k' ih =>
    intro a _ hsum
    rw [List.range'_succ]
    rcases Nat.eq_zero_or_pos k' with hk' | hk'
    · subst hk'
      have hstop : ¬ (a < N - 1) := by omega
      simp [apiLoopGo, hfail a, hstop]
    · have hlt : a < N - 1 := by omega
      have hrec := ih (a + 1) hk' (by omega)
      obtain ⟨k'', rfl⟩ : ∃ k'', k' = k'' + 1 := ⟨k' - 1, by omega⟩
      rw [apiLoopGo_failStep oracle N b a _ (hfail a) hlt, hrec]
      have harith : k'' + 1 + 1 - 1 = k'' + 1 := rfl
      rw [harith, List.range'_succ, List.map_cons]
      rfl

/-- Claim C1: with `maxAttempts = N ≥ 1` and every GET attempt failing
with a transport-level error (`requests.exceptions.RequestException`),
`make_api_request` performs exactly `N` attempts, sleeps
`backoff * 2^(k-2)` before each attempt `k ≥ 2` (the i-th recorded
delay, 0-indexed, is `2^i * backoff`), and returns `None` — the
exception is absorbed, never propagated. -/
theorem make_api_request_retry_bound (oracle : Nat → AttemptOutcome) (N : Nat) (b : ℚ)
    (hN : 1 ≤ N) (hfail : ∀ k, oracle k = .transportError) :
    make_api_request oracle N b =
      ⟨none, N, (List.range (N - 1)).map (fun i => (2 : ℚ) ^ i * b)⟩ := by
  unfold make_api_request
  rw [List.range_eq_range', List.range_eq_range']
  exact apiLoopGo_allFail oracle N b hfail N 0 hN (by omega)

/-- Witness for C1 at `N = 3`, `backoff = 1`: three attempts, sleeps
`[2^0 * 1, 2^1 * 1]`, result `None`. -/
theorem make_api_request_retry_bound_witness :
    1 ≤ 3 ∧ make_api_request (fun _ => .transportError) 3 1 =
      ⟨none, 3, (List.range 2).map (fun i => (2 : ℚ) ^ i * 1)⟩ :=
  ⟨by decide, make_api_request_retry_bound (fun _ => .transportError) 3 1 (by decide)
    (fun _ => rfl)⟩

/-! ### Theorems about the pagination loop (claim C2) -/

/-- Invariant step for the pagination loop: if the server consistently
serves nonempty slices of a fixed record list `L` and reports
`total = L.length` on every page, then from an accumulator holding the
first `k` records the loop finishes with exactly `L`. -/
theorem get_stats_loop_inv (L : List α) (page : Nat → Option (Page α))
    (H : ∀ s, s ≤ L.length →
      ∃ n, page s = some ⟨(L.drop s).take n, L.length⟩ ∧ (s < L.length → 0 < n)) :
    ∀ (fuel k : Nat), k ≤ L.length → L.length - k < fuel →
      get_stats_loop page fuel (L.take k) = .done L := by
  intro fuel
  induction fuel with
  | zero => omega
  | succ f ih =>
    intro k hk hf
    obtain ⟨n, hp, hn⟩ := H k hk
    have hlen : (L.take k).length = k := by
      simp [List.length_take, Nat.min_eq_left hk]
    have hacc2 : L.take k ++ (L.drop k).take n = L.take (k + n) :=
      (List.take_add L k n).symm
    by_cases hfin : L.length ≤ k + n
    · have htake : L.take (k + n) = L := List.take_of_length_le hfin
      have hcond : L.length ≤ (L.take k ++ (L.drop k).take n).length := by
        rw [hacc2, htake]
      simp [get_stats_loop, hlen, hp, hcond, hacc2, htake]
    · have hklt : k < L.length := by omega
      have hnpos : 0 < n := hn hklt
      have hlen2 : (L.take k ++ (L.drop k).take n).length = k + n := by
        rw [hacc2]
        simp [List.length_take, Nat.min_eq_left (le_of_lt (by omega : k + n < L.length))]
      have hcond : ¬ (L.length ≤ (L.take k ++ (L.drop k).take n).length) := by
        rw [hlen2]; omega
      have hrec := ih (k + n) (by omega) (by omega)
      simp [get_stats_loop, hlen, hp, hcond, hacc2, hrec]

/-- Claim C2: when every page consistently serves a slice of a fixed
record list `L` starting at the requested offset (nonempty while the
collection is incomplete) and reports the same `total = L.length`, the
`get_stats` pagination loop terminates and returns exactly `L`:
`total` records, each record index exactly once, in page-arrival
order. -/
theorem get_stats_pagination (L : List α) (page : Nat → Option (Page α))
    (H : ∀ s, s ≤ L.length →
      ∃ n, page s = some ⟨(L.drop s).take n, L.length⟩ ∧ (s < L.length → 0 < n)) :
    get_stats_loop page (L.length + 1) [] = .done L := by
  have h := get_stats_loop_inv L page H (L.length + 1) 0 (Nat.zero_le _) (by omega)
  simpa using h

/-- Witness for C2: three records served in pages of (at most) two. -/
theorem get_stats_pagination_witness :
    get_stats_loop (fun s => some ⟨(([10, 20, 30] : List ℕ).drop s).take 2, 3⟩) 4 []
      = .done [10, 20, 30] :=
  get_stats_pagination [10, 20, 30] _ (fun _ _ => ⟨2, rfl, fun _ => by omega⟩)

/-! ### Theorems about `filter_json_data` (claims C3, C4) -/

/-- The list comprehension equals `List.filter` by the
`exclude ^ all(criteria)` predicate whenever it raises no exception. -/
theorem filterItems_eq_filter (exclude : Bool) (filters : List (String × Json)) :
    ∀ (data out : List Json), filterItems exclude filters data = .ok out →
      out = data.filter (fun it =>
        match allCriteria it filters with
        | .ok b => xor exclude b
        | .error _ => false) := by
  intro data
  induction data with
  | nil =>
    intro out h
    cases h
    rfl
  | cons it rest ih =>
    intro out h
    simp only [filterItems] at h
    cases hc : allCriteria it filters with
    | error e => rw [hc] at h; cases h
    | ok b =>
      rw [hc] at h
      cases hr : filterItems exclude filters rest with
      | error e => rw [hr] at h; cases h
      | ok out' =>
        rw [hr] at h
        injection h with h'
        subst h'
        rw [List.filter_cons]
        have hp : (match allCriteria it filters with
            | .ok b => xor exclude b
            | .error _ => false) = xor exclude b := by rw [hc]
        rw [hp, ih out' hr]

/-- When the comprehension succeeds, every item's criteria conjunction
evaluated without raising. -/
theorem filterItems_ok_all (exclude : Bool) (filters : List (String × Json)) :
    ∀ (data out : List Json), filterItems exclude filters data = .ok out →
      ∀ it ∈ data, ∃ b, allCriteria it filters = .ok b := by
  intro data
  induction data with
  | nil => intro out _ it hit; cases hit
  | cons x rest ih =>
    intro out h it hit
    simp only [filterItems] at h
    cases hc : allCriteria x filters with
    | error e => rw [hc] at h; cases h
    | ok b =>
      rw [hc] at h
      cases hr : filterItems exclude filters rest with
      | error e => rw [hr] at h; cases h
      | ok out' =>
        rcases List.mem_cons.mp hit with rfl | hmem
        · exact ⟨b, hc⟩
        · exact ih out' hr it hmem

/-- Claim C3: with a non-empty criteria mapping, a record is kept by
`filter_json_data` exactly when `exclude XOR (all criteria match)`
holds for it (provided evaluation raises no exception, which the
successful return witnesses); with an empty criteria mapping the data
is returned unchanged regardless of `exclude`. -/
theorem filter_json_data_keep_iff (data : List Json) (filters : List (String × Json))
    (exclude : Bool) :
    (∀ out, filters ≠ [] → filter_json_data data filters exclude = .ok out →
      out = data.filter (fun it =>
        match allCriteria it filters with
        | .ok b => xor exclude b
        | .error _ => false)) ∧
    filter_json_data data [] exclude = .ok data := by
  constructor
  · intro out hne h
    have hfe : filters.isEmpty = false := by
      cases filters with
      | nil => exact absurd rfl hne
      | cons a l => rfl
    unfold filter_json_data at h
    rw [hfe] at h
    simp only [Bool.false_eq_true, if_false] at h
    exact filterItems_eq_filter exclude filters data out h
  · rfl

/-- Witness for C3 (spec example): `{"gp": [10]}` keeps the `gp=10`
record and drops the `gp=0` record when `exclude=False`. -/
theorem filter_json_data_keep_iff_witness :
    ([("gp", Json.arr [Json.num 10])] : List (String × Json)) ≠ [] ∧
    [Json.obj [("gp", Json.num 10)]] =
      ([Json.obj [("gp", Json.num 10)], Json.obj [("gp", Json.num 0)]].filter (fun it =>
        match allCriteria it [("gp", Json.arr [Json.num 10])] with
        | .ok b => xor false b
        | .error _ => false)) :=
  ⟨List.cons_ne_nil _ _,
    (filter_json_data_keep_iff [Json.obj [("gp", Json.num 10)], Json.obj [("gp", Json.num 0)]]
      [("gp", Json.arr [Json.num 10])] false).1 _ (List.cons_ne_nil _ _) rfl⟩

/-- Counterexample to claim C4 as stated: for the empty criteria
mapping the code ignores `exclude` and returns all records from both
calls, so the two outputs do not partition a non-empty input — their
intersection contains the record. -/
theorem filter_json_data_partition_counterexample :
    filter_json_data [Json.obj []] [] false = .ok [Json.obj []] ∧
    filter_json_data [Json.obj []] [] true = .ok [Json.obj []] ∧
    ¬ (∀ x ∈ ([Json.obj []] : List Json), x ∉ ([Json.obj []] : List Json)) :=
  ⟨rfl, rfl, fun h => h (Json.obj []) (List.mem_singleton.mpr rfl)
    (List.mem_singleton.mpr rfl)⟩

/-- Claim C4 as amended: for every non-empty criteria mapping, the
`exclude=False` and `exclude=True` outputs partition the input exactly:
their concatenation is a permutation of the input and no record of one
occurs in the other. -/
theorem filter_json_data_partition (data : List Json) (filters : List (String × Json))
    (hne : filters ≠ []) (out₁ out₂ : List Json)
    (h₁ : filter_json_data data filters false = .ok out₁)
    (h₂ : filter_json_data data filters true = .ok out₂) :
    (out₁ ++ out₂).Perm data ∧ ∀ x ∈ out₁, x ∉ out₂ := by
  have hfe : filters.isEmpty = false := by
    cases filters with
    | nil => exact absurd rfl hne
    | cons a l => rfl
  unfold filter_json_data at h₁ h₂
  rw [hfe] at h₁ h₂
  simp only [Bool.false_eq_true, if_false] at h₁ h₂
  have e₁ := filterItems_eq_filter false filters data out₁ h₁
  have e₂ := filterItems_eq_filter true filters data out₂ h₂
  have hall := filterItems_ok_all false filters data out₁ h₁
  simp only [Bool.false_xor] at e₁
  simp only [Bool.true_xor] at e₂
  have e₂' : out₂ = data.filter (fun it => !(match allCriteria it filters with
      | .ok b => b
      | .error _ => false)) := by
    rw [e₂]
    refine List.filter_congr (fun x hx => ?_)
    obtain ⟨b, hb⟩ := hall x hx
    rw [hb]
  constructor
  · rw [e₁, e₂']
    exact List.filter_append_perm _ data
  · intro x hx₁ hx₂
    rw [e₁] at hx₁
    rw [e₂'] at hx₂
    have hp₁ := (List.mem_filter.mp hx₁).2
    have hp₂ := (List.mem_filter.mp hx₂).2
    rw [hp₁] at hp₂
    cases hp₂

/-- Witness for the amended C4 on the spec's `gp` example. -/
theorem filter_json_data_partition_witness :
    (([Json.obj [("gp", Json.num 10)]] ++ [Json.obj [("gp", Json.num 0)]]).Perm
      [Json.obj [("gp", Json.num 10)], Json.obj [("gp", Json.num 0)]]) ∧
    ∀ x ∈ [Json.obj [("gp", Json.num 10)]], x ∉ [Json.obj [("gp", Json.num 0)]] :=
  filter_json_data_partition
    [Json.obj [("gp", Json.num 10)], Json.obj [("gp", Json.num 0)]]
    [("gp", Json.arr [Json.num 10])] (List.cons_ne_nil _ _) _ _ rfl rfl

/-! ### Theorems about path resolution (claims C5, C10) -/

/-- After a missing segment, the traversal continues on the `{}`
default and stays there without raising. -/
theorem nestedWalk_emptyObj : ∀ keys, nestedWalk (.obj []) keys = .ok (.obj []) := by
  intro keys
  induction keys with
  | nil => rfl
  | cons k rest ih => simpa [nestedWalk, dictGetDefault, lookupField] using ih

/-- Counterexample to claim C5 as stated: when an intermediate value is
a scalar, `get_nested_value` raises `AttributeError` (`.get` on a
non-dict) and non-strict `filter_view` raises `TypeError` (`in` on a
non-container) instead of returning the not-found signal. -/
theorem path_resolution_raises_counterexample :
    get_nested_value (Json.obj [("a", Json.num 5)]) ("a.b")
      = .error PyErr.attributeError ∧
    filter_view (Json.obj [("a", Json.num 5)]) ("a.b") false
      = .error PyErr.typeError :=
  ⟨rfl, rfl⟩

/-- The traversal of `get_nested_value` never raises along a path whose
traversed intermediate values are all mappings. -/
theorem nestedWalk_isOk_of_mapsOnly :
    ∀ (keys : List String) (data : Json), mapsOnly data keys = true →
      (nestedWalk data keys).isOk = true := by
  intro keys
  induction keys with
  | nil => intro data _; rfl
  | cons k rest ih =>
    intro data h
    cases data with
    | obj fields =>
      cases hl : lookupField fields k with
      | some v =>
        simp only [mapsOnly, hl] at h
        simpa [nestedWalk, dictGetDefault, hl] using ih v h
      | none =>
        have hstep : nestedWalk (Json.obj fields) (k :: rest) = .ok (.obj []) := by
          simp [nestedWalk, dictGetDefault, hl, nestedWalk_emptyObj]
        rw [hstep]
        rfl
    | null => simp [mapsOnly] at h
    | bool b => simp [mapsOnly] at h
    | num n => simp [mapsOnly] at h
    | str s => simp [mapsOnly] at h
    | arr l => simp [mapsOnly] at h

/-- Non-strict `filter_view_go` never raises along a path whose
traversed intermediate values are all mappings. -/
theorem filter_view_go_isOk_of_mapsOnly :
    ∀ (keys : List String) (data : Json), mapsOnly data keys = true →
      (filter_view_go false data keys).isOk = true := by
  intro keys
  induction keys with
  | nil => intro data _; rfl
  | cons k rest ih =>
    intro data h
    cases data with
    | obj fields =>
      cases hl : lookupField fields k with
      | some v =>
        simp only [mapsOnly, hl] at h
        simpa [filter_view_go, pyContains, pyIndexStr, hl] using ih v h
      | none =>
        have hstep : filter_view_go false (Json.obj fields) (k :: rest) = .ok .null := by
          simp [filter_view_go, pyContains, hl]
        rw [hstep]
        rfl
    | null => simp [mapsOnly] at h
    | bool b => simp [mapsOnly] at h
    | num n => simp [mapsOnly] at h
    | str s => simp [mapsOnly] at h
    | arr l => simp [mapsOnly] at h

/-- Claim C5 as amended: path resolution by `get_nested_value` and by
non-strict `filter_view` never raises provided no traversed
intermediate value is a non-mapping; a segment that is absent at a
mapping level yields the not-found signal (`None`) without raising.
(As the counterexample shows, a scalar or list intermediate value makes
the source raise, so the claim's unconditional never-raises guarantee
fails.) -/
theorem path_resolution_isOk_of_mapsOnly (data : Json) (key : String)
    (h : mapsOnly data (splitDot key) = true) :
    (get_nested_value data key).isOk = true ∧
    (filter_view data key false).isOk = true := by
  constructor
  · unfold get_nested_value
    have hw := nestedWalk_isOk_of_mapsOnly (splitDot key) data h
    cases hv : nestedWalk data (splitDot key) with
    | ok v => rfl
    | error e => rw [hv] at hw; cases hw
  · unfold filter_view
    split
    · rfl
    · exact filter_view_go_isOk_of_mapsOnly (splitDot key) data h

/-- Witness for the amended C5 on a two-level all-mapping path. -/
theorem path_resolution_isOk_witness :
    mapsOnly (Json.obj [("a", Json.obj [("b", Json.num 1)])]) (splitDot ("a.b")) = true ∧
    ((get_nested_value (Json.obj [("a", Json.obj [("b", Json.num 1)])]) ("a.b")).isOk = true ∧
     (filter_view (Json.obj [("a", Json.obj [("b", Json.num 1)])]) ("a.b") false).isOk = true) :=
  ⟨rfl, path_resolution_isOk_of_mapsOnly (Json.obj [("a", Json.obj [("b", Json.num 1)])])
    ("a.b") rfl⟩

/-- Claim C10: `get_nested_value` returns `None` whenever the value
reached by the traversal is falsy (`0`, `""`, `False`, `[]`, `{}` — and
the `{}` default of a missing segment), so an absent field and a field
holding a falsy value are indistinguishable at the interface; in
particular an `IsAbsent` criterion (null filter value) matches a record
whose field holds `0`. -/
theorem get_nested_value_falsy_collapse :
    (∀ (data : Json) (key : String) (v : Json),
        nestedWalk data (splitDot key) = .ok v → truthy v = false →
        get_nested_value data key = .ok .null) ∧
    get_nested_value (Json.obj [("gp", Json.num 0)]) ("gp")
      = get_nested_value (Json.obj []) ("gp") ∧
    filter_json_data [Json.obj [("gp", Json.num 0)]] [("gp", Json.null)] false
      = .ok [Json.obj [("gp", Json.num 0)]] := by
  refine ⟨?_, rfl, rfl⟩
  intro data key v hw ht
  unfold get_nested_value
  rw [hw]
  show Except.ok (if truthy v = true then v else Json.null) = Except.ok Json.null
  rw [ht]
  rfl

/-- Witness for C10: an empty-string value collapses to `None`. -/
theorem get_nested_value_falsy_collapse_witness :
    nestedWalk (Json.obj [("x", Json.str (""))]) (splitDot ("x")) = .ok (Json.str ("")) ∧
    truthy (Json.str ("")) = false ∧
    get_nested_value (Json.obj [("x", Json.str (""))]) ("x") = .ok .null :=
  ⟨rfl, rfl, get_nested_value_falsy_collapse.1 (Json.obj [("x", Json.str (""))]) ("x")
    (Json.str ("")) rfl rfl⟩

/-! ### Theorems about the expression compiler (claims C8, C9) -/

/-- Counterexample to claim C8 as stated: with no selection mode and no
keyword arguments, `construct_cayenne_exp` does not fail — it returns
the empty expression string. -/
theorem construct_cayenne_exp_no_mode_counterexample :
    construct_cayenne_exp none none none none none [] = .ok ("") ∧
    (construct_cayenne_exp none none none none none []).isOk = true :=
  ⟨rfl, rfl⟩

/-- Claim C8 as amended: compiling with no selection mode supplied
raises no validation error; the selection clause is simply omitted and
the result is the `" and "`-join of the remaining keyword predicates
(the empty string when there are none). -/
theorem construct_cayenne_exp_no_mode (kw : List (String × Json)) :
    construct_cayenne_exp none none none none none kw =
      Except.map (joinWith (" and ")) (kwargParts kw) := by
  unfold construct_cayenne_exp
  cases h : kwargParts kw <;> simp [h, Except.map]

/-- Claim C9: the spec's worked example — season `20232024`, game type
`2`, positions `["C","D"]` — compiles to exactly the documented
string. -/
theorem construct_cayenne_exp_example :
    construct_cayenne_exp none none none none (some ("20232024"))
      [("game_type", Json.num 2), ("position", Json.arr [Json.str ("C"), Json.str ("D")])]
      = .ok ("seasonId=20232024 and gameTypeId=2 and (positionCode='C' or positionCode='D')") :=
  rfl

/-! ### Stable-sort machinery for the `get_players` sort
(claims C6, C7)

A stable sort pass by a total preorder comparator refines any prior
ordering of tied elements; iterating passes therefore sorts by the
lexicographic combination of the pass comparators with the original
position as final tie-break.  These lemmas establish that and derive
sortedness and idempotence of the multi-key sort. -/

/-- The comparator is total. -/
def TotalB (le : α → α → Bool) : Prop := ∀ x y, le x y = true ∨ le y x = true

/-- The comparator is transitive. -/
def TransB (le : α → α → Bool) : Prop :=
  ∀ x y z, le x y = true → le y z = true → le x z = true

/-- The relation is asymmetric. -/
def AsymmB (r : α → α → Bool) : Prop := ∀ x y, r x y = true → r y x = true → False

/-- Lexicographic refinement: strictly less by `le`, or tied by `le`
and related by the tie-break `r`. -/
def lexB (le r : α → α → Bool) (x y : α) : Bool :=
  (le x y && !(le y x)) || (le x y && le y x && r x y)

theorem lexB_true_iff {le r : α → α → Bool} {x y : α} :
    lexB le r x y = true ↔
      (le x y = true ∧ le y x = false) ∨
      (le x y = true ∧ le y x = true ∧ r x y = true) := by
  simp only [lexB, Bool.or_eq_true, Bool.and_eq_true, Bool.not_eq_true']
  tauto

theorem lexB_of_strict {le r : α → α → Bool} {x y : α}
    (h1 : le x y = true) (h2 : le y x = false) : lexB le r x y = true :=
  lexB_true_iff.mpr (Or.inl ⟨h1, h2⟩)

theorem lexB_of_tie {le r : α → α → Bool} {x y : α}
    (h1 : le x y = true) (h2 : le y x = true) (h3 : r x y = true) :
    lexB le r x y = true :=
  lexB_true_iff.mpr (Or.inr ⟨h1, h2, h3⟩)

theorem lexB_le {le r : α → α → Bool} {x y : α} (h : lexB le r x y = true) :
    le x y = true := by
  rcases lexB_true_iff.mp h with ⟨h1, _⟩ | ⟨h1, _, _⟩ <;> exact h1

/-- Strictly-smaller composes with the refined order on the left. -/
theorem lexB_strictMix {le r : α → α → Bool} (hTrans : TransB le) {x y z : α}
    (h1 : le x y = true) (h2 : le y x = false) (h3 : lexB le r y z = true) :
    lexB le r x z = true := by
  have hyz := lexB_le h3
  have hxz := hTrans x y z h1 hyz
  have hzx : le z x = false := by
    rcases Bool.eq_false_or_eq_true (le z x) with ht | hf
    · have hyx := hTrans y z x hyz ht
      rw [h2] at hyx
      exact Bool.noConfusion hyx
    · exact hf
  exact lexB_of_strict hxz hzx

theorem insPass_perm (le : α → α → Bool) (x : α) :
    ∀ l : List α, (insPass le x l).Perm (x :: l) := by
  intro l
  induction l with
  | nil => exact List.Perm.refl _
  | cons y ys ih =>
    cases hc : le y x with
    | true =>
      simp only [insPass, hc, if_true]
      exact (ih.cons y).trans (List.Perm.swap x y ys)
    | false =>
      simp only [insPass, hc, Bool.false_eq_true, if_false]
      exact List.Perm.refl _

theorem mem_insPass {le : α → α → Bool} (x : α) (l : List α) (z : α) :
    z ∈ insPass le x l ↔ z = x ∨ z ∈ l := by
  rw [(insPass_perm le x l).mem_iff, List.mem_cons]

/-- Inserting a later-arriving element into a list sorted by the
refinement `lexB le r` keeps it sorted, provided the tie-break ranks
the new element after every present element. -/
theorem insPass_pairwise {le r : α → α → Bool} (hTot : TotalB le) (hTrans : TransB le)
    (x : α) :
    ∀ acc : List α, acc.Pairwise (fun a b => lexB le r a b = true) →
      (∀ y ∈ acc, r y x = true) →
      (insPass le x acc).Pairwise (fun a b => lexB le r a b = true) := by
  intro acc
  induction acc with
  | nil =>
    intro _ _
    exact List.pairwise_singleton _ _
  | cons y ys ih =>
    intro hpw hx
    rw [List.pairwise_cons] at hpw
    obtain ⟨hy, hys⟩ := hpw
    cases hc : le y x with
    | true =>
      simp only [insPass, hc, if_true]
      rw [List.pairwise_cons]
      constructor
      · intro z hz
        rcases (mem_insPass x ys z).mp hz with rfl | hz'
        · rcases Bool.eq_false_or_eq_true (le z y) with ht | hf
          · exact lexB_of_tie hc ht (hx y (List.mem_cons_self y ys))
          · exact lexB_of_strict hc hf
        · exact hy z hz'
      · exact ih hys (fun y' hy' => hx y' (List.mem_cons_of_mem y hy'))
    | false =>
      have hxy : le x y = true := (hTot x y).resolve_right (fun ht => by
        rw [hc] at ht; exact Bool.noConfusion ht)
      simp only [insPass, hc, Bool.false_eq_true, if_false]
      rw [List.pairwise_cons]
      constructor
      · intro z hz
        rcases List.mem_cons.mp hz with rfl | hz'
        · exact lexB_of_strict hxy hc
        · exact lexB_strictMix hTrans hxy hc (hy z hz')
      · rw [List.pairwise_cons]
        exact ⟨hy, hys⟩

/-- The insertion-sort fold refines the prior order `r` of its input
into `lexB le r`. -/
theorem foldl_insPass_pairwise {le r : α → α → Bool} (hTot : TotalB le)
    (hTrans : TransB le) :
    ∀ (l acc : List α), acc.Pairwise (fun a b => lexB le r a b = true) →
      (∀ y ∈ acc, ∀ x ∈ l, r y x = true) →
      l.Pairwise (fun a b => r a b = true) →
      (l.foldl (fun acc x => insPass le x acc) acc).Pairwise
        (fun a b => lexB le r a b = true) := by
  intro l
  induction l with
  | nil => intro acc h _ _; exact h
  | cons x l' ih =>
    intro acc hacc hcross hl
    rw [List.pairwise_cons] at hl
    obtain ⟨hxl, hl'⟩ := hl
    show (l'.foldl _ (insPass le x acc)).Pairwise _
    apply ih
    · exact insPass_pairwise hTot hTrans x acc hacc
        (fun y hy => hcross y hy x (List.mem_cons_self x l'))
    · intro y hy z hz
      rcases (mem_insPass x acc y).mp hy with rfl | hy'
      · exact hxl z hz
      · exact hcross y hy' z (List.mem_cons_of_mem x hz)
    · exact hl'

/-- Stable sort output is ordered by `lexB le r` whenever the input was
ordered by the tie-break `r`. -/
theorem stableSortBy_pairwise_lex (le r : α → α → Bool) (hTot : TotalB le)
    (hTrans : TransB le) (l : List α) (hl : l.Pairwise (fun a b => r a b = true)) :
    (stableSortBy le l).Pairwise (fun a b => lexB le r a b = true) :=
  foldl_insPass_pairwise hTot hTrans l [] List.Pairwise.nil
    (fun y hy => absurd hy (List.not_mem_nil y)) hl

/-- Stable sort output is sorted by its comparator. -/
theorem stableSortBy_sorted (le : α → α → Bool) (hTot : TotalB le)
    (hTrans : TransB le) (l : List α) :
    (stableSortBy le l).Pairwise (fun a b => le a b = true) := by
  have h := stableSortBy_pairwise_lex le (fun _ _ => true) hTot hTrans l
    (List.pairwise_iff_getElem.mpr (fun i j hi hj hij => rfl))
  exact h.imp (fun hab => lexB_le hab)

theorem foldl_insPass_perm (le : α → α → Bool) :
    ∀ (l acc : List α), (l.foldl (fun acc x => insPass le x acc) acc).Perm (acc ++ l) := by
  intro l
  induction l with
  | nil =>
    intro acc
    rw [List.append_nil]
    exact List.Perm.refl _
  | cons x l' ih =>
    intro acc
    show (l'.foldl _ (insPass le x acc)).Perm (acc ++ x :: l')
    have h1 := ih (insPass le x acc)
    have h2 : (insPass le x acc ++ l').Perm ((x :: acc) ++ l') :=
      (insPass_perm le x acc).append_right l'
    have h3 : (x :: (acc ++ l')).Perm (acc ++ x :: l') := List.perm_middle.symm
    exact h1.trans (h2.trans h3)

theorem stableSortBy_perm (le : α → α → Bool) (l : List α) :
    (stableSortBy le l).Perm l := by
  have h := foldl_insPass_perm le l []
  simpa using h

/-- The lexicographic combination of successive pass comparators
(least significant first) over a base tie-break. -/
def foldLex {α : Type*} (cs : List (α → α → Bool)) (r : α → α → Bool) : α → α → Bool :=
  cs.foldl (fun r c => lexB c r) r

theorem multiPass_perm (cs : List (α → α → Bool)) :
    ∀ l : List α, (multiPass cs l).Perm l := by
  induction cs with
  | nil => intro l; exact List.Perm.refl _
  | cons c cs' ih =>
    intro l
    show (multiPass cs' (stableSortBy c l)).Perm l
    exact (ih _).trans (stableSortBy_perm c l)

theorem multiPass_pairwise : ∀ (cs : List (α → α → Bool)),
    (∀ c ∈ cs, TotalB c ∧ TransB c) →
    ∀ (r : α → α → Bool) (l : List α), l.Pairwise (fun a b => r a b = true) →
      (multiPass cs l).Pairwise (fun a b => foldLex cs r a b = true) := by
  intro cs
  induction cs with
  | nil => intro _ r l hl; exact hl
  | cons c cs' ih =>
    intro h r l hl
    have hc := h c (List.mem_cons_self c cs')
    show (multiPass cs' (stableSortBy c l)).Pairwise
      (fun a b => foldLex cs' (lexB c r) a b = true)
    exact ih (fun c' hc' => h c' (List.mem_cons_of_mem c hc')) (lexB c r) _
      (stableSortBy_pairwise_lex c r hc.1 hc.2 l hl)

theorem lexB_asymm {le r : α → α → Bool} (h : AsymmB r) : AsymmB (lexB le r) := by
  intro x y hxy hyx
  rcases lexB_true_iff.mp hxy with ⟨h1, h2⟩ | ⟨h1, h2, h3⟩ <;>
    rcases lexB_true_iff.mp hyx with ⟨g1, g2⟩ | ⟨g1, g2, g3⟩
  · rw [h2] at g1; exact Bool.noConfusion g1
  · rw [h2] at g1; exact Bool.noConfusion g1
  · rw [g2] at h1; exact Bool.noConfusion h1
  · exact h x y h3 g3

theorem foldLex_asymm : ∀ (cs : List (α → α → Bool)) (r : α → α → Bool),
    AsymmB r → AsymmB (foldLex cs r) := by
  intro cs
  induction cs with
  | nil => intro r h; exact h
  | cons c cs' ih => intro r h; exact ih _ (lexB_asymm h)

/-- Lift a comparator on records to decorated records, comparing the
record components only. -/
def liftCmp (le : α → α → Bool) : α × Nat → α × Nat → Bool := fun p q => le p.1 q.1

theorem liftCmp_total (le : α → α → Bool) (h : TotalB le) : TotalB (liftCmp le) :=
  fun p q => h p.1 q.1

theorem liftCmp_trans (le : α → α → Bool) (h : TransB le) : TransB (liftCmp le) :=
  fun p q s hpq hqs => h p.1 q.1 s.1 hpq hqs

/-- A lifted lexicographic chain only inspects the record components
and the base tie-break, so it transfers along any re-decoration whose
base tie-break holds. -/
theorem foldLex_lift_transfer : ∀ (cs : List (α → α → Bool))
    (r r' : α × Nat → α × Nat → Bool) (x y x' y' : α × Nat),
    x.1 = x'.1 → y.1 = y'.1 → (r x y = true → r' x' y' = true) →
    foldLex (cs.map liftCmp) r x y = true → foldLex (cs.map liftCmp) r' x' y' = true := by
  intro cs
  induction cs with
  | nil => intro r r' x y x' y' _ _ hrr h; exact hrr h
  | cons c cs' ih =>
    intro r r' x y x' y' hx hy hrr h
    refine ih (lexB (liftCmp c) r) (lexB (liftCmp c) r') x y x' y' hx hy ?_ h
    intro hxy
    rcases lexB_true_iff.mp hxy with ⟨h1, h2⟩ | ⟨h1, h2, h3⟩
    · refine lexB_of_strict ?_ ?_
      · show c x'.1 y'.1 = true
        rw [← hx, ← hy]; exact h1
      · show c y'.1 x'.1 = false
        rw [← hx, ← hy]; exact h2
    · refine lexB_of_tie ?_ ?_ (hrr h3)
      · show c x'.1 y'.1 = true
        rw [← hx, ← hy]; exact h1
      · show c y'.1 x'.1 = true
        rw [← hx, ← hy]; exact h2

/-- Decorate a list with positions starting at `n`. -/
def decorate : List α → Nat → List (α × Nat)
  | [], _ => []
  | x :: xs, n => (x, n) :: decorate xs (n + 1)

/-- Strict position order on decorated records. -/
def idxLt : α × Nat → α × Nat → Bool := fun p q => decide (p.2 < q.2)

theorem idxLt_asymm : AsymmB (idxLt : α × Nat → α × Nat → Bool) := by
  intro p q h1 h2
  simp only [idxLt, decide_eq_true_eq] at h1 h2
  omega

theorem decorate_map_fst : ∀ (l : List α) (n : Nat),
    (decorate l n).map Prod.fst = l := by
  intro l
  induction l with
  | nil => intro n; rfl
  | cons x xs ih => intro n; simp [decorate, ih]

theorem decorate_snd_ge : ∀ (l : List α) (n : Nat) (p : α × Nat),
    p ∈ decorate l n → n ≤ p.2 := by
  intro l
  induction l with
  | nil => intro n p hp; cases hp
  | cons x xs ih =>
    intro n p hp
    rcases List.mem_cons.mp hp with rfl | hp'
    · exact Nat.le_refl n
    · exact Nat.le_trans (Nat.le_succ n) (ih (n + 1) p hp')

theorem decorate_pairwise_idx : ∀ (l : List α) (n : Nat),
    (decorate l n).Pairwise (fun p q => idxLt p q = true) := by
  intro l
  induction l with
  | nil => intro n; exact List.Pairwise.nil
  | cons x xs ih =>
    intro n
    show ((x, n) :: decorate xs (n + 1)).Pairwise _
    rw [List.pairwise_cons]
    refine ⟨fun q hq => ?_, ih (n + 1)⟩
    have := decorate_snd_ge xs (n + 1) q hq
    simp only [idxLt, decide_eq_true_eq]
    omega

theorem decorate_length : ∀ (l : List α) (n : Nat),
    (decorate l n).length = l.length := by
  intro l
  induction l with
  | nil => intro n; rfl
  | cons x xs ih => intro n; simp [decorate, ih]

theorem decorate_getElem : ∀ (l : List α) (n i : Nat) (h : i < l.length)
    (h2 : i < (decorate l n).length), (decorate l n)[i] = (l[i], n + i) := by
  intro l
  induction l with
  | nil => intro n i h h2; exact absurd h (Nat.not_lt_zero i)
  | cons x xs ih =>
    intro n i h h2
    cases i with
    | zero => simp [decorate]
    | succ i' =>
      have h' : i' < xs.length := Nat.lt_of_succ_lt_succ h
      have h2' : i' < (decorate xs (n + 1)).length := by
        rw [decorate_length]; exact h'
      have := ih (n + 1) i' h' h2'
      simp only [decorate, List.getElem_cons_succ, this]
      have harith : n + 1 + i' = n + (i' + 1) := by omega
      rw [harith]

theorem map_fst_insPass (le : α → α → Bool) (x : α × Nat) :
    ∀ d : List (α × Nat),
      (insPass (liftCmp le) x d).map Prod.fst = insPass le x.1 (d.map Prod.fst) := by
  intro d
  induction d with
  | nil => rfl
  | cons y ys ih =>
    cases hc : le y.1 x.1 <;>
      simp [insPass, liftCmp, hc, ih]

theorem map_fst_foldl_insPass (le : α → α → Bool) :
    ∀ (d acc : List (α × Nat)),
      (d.foldl (fun a x => insPass (liftCmp le) x a) acc).map Prod.fst
        = (d.map Prod.fst).foldl (fun a x => insPass le x a) (acc.map Prod.fst) := by
  intro d
  induction d with
  | nil => intro acc; rfl
  | cons x xs ih =>
    intro acc
    simp only [List.foldl_cons, List.map_cons]
    rw [ih, map_fst_insPass]

theorem map_fst_stableSortBy (le : α → α → Bool) (d : List (α × Nat)) :
    (stableSortBy (liftCmp le) d).map Prod.fst = stableSortBy le (d.map Prod.fst) :=
  map_fst_foldl_insPass le d []

theorem map_fst_multiPass : ∀ (cs : List (α → α → Bool)) (d : List (α × Nat)),
    (multiPass (cs.map liftCmp) d).map Prod.fst = multiPass cs (d.map Prod.fst) := by
  intro cs
  induction cs with
  | nil => intro d; rfl
  | cons c cs' ih =>
    intro d
    show (multiPass (cs'.map liftCmp) (stableSortBy (liftCmp c) d)).map Prod.fst
      = multiPass cs' (stableSortBy c (d.map Prod.fst))
    rw [ih, map_fst_stableSortBy]

/-- Re-decorating a sorted decorated list with fresh increasing
positions preserves sortedness by the lifted lexicographic chain. -/
theorem redecorate_pairwise (cs : List (α → α → Bool)) (out : List (α × Nat))
    (h : out.Pairwise (fun p q => foldLex (cs.map liftCmp) idxLt p q = true)) :
    (decorate (out.map Prod.fst) 0).Pairwise
      (fun p q => foldLex (cs.map liftCmp) idxLt p q = true) := by
  rw [List.pairwise_iff_getElem] at h ⊢
  intro i j hi hj hij
  rw [decorate_length, List.length_map] at hi hj
  have hmi : i < (out.map Prod.fst).length := by rw [List.length_map]; exact hi
  have hmj : j < (out.map Prod.fst).length := by rw [List.length_map]; exact hj
  have hdi : i < (decorate (out.map Prod.fst) 0).length := by
    rw [decorate_length]; exact hmi
  have hdj : j < (decorate (out.map Prod.fst) 0).length := by
    rw [decorate_length]; exact hmj
  have hgi := decorate_getElem (out.map Prod.fst) 0 i hmi hdi
  have hgj := decorate_getElem (out.map Prod.fst) 0 j hmj hdj
  rw [hgi, hgj]
  refine foldLex_lift_transfer cs idxLt idxLt out[i] out[j] _ _ ?_ ?_ ?_
    (h i j hi hj hij)
  · show out[i].1 = ((out.map Prod.fst)[i], 0 + i).1
    rw [List.getElem_map]
  · show out[j].1 = ((out.map Prod.fst)[j], 0 + j).1
    rw [List.getElem_map]
  · intro _
    simp only [idxLt, decide_eq_true_eq]
    omega

/-- Two sorted permutations of each other under an asymmetric relation
coincide. -/
theorem eq_of_perm_of_pairwiseB {S : α → α → Bool} (hasym : AsymmB S) {l₁ l₂ : List α}
    (hp : l₁.Perm l₂) (h₁ : l₁.Pairwise (fun a b => S a b = true))
    (h₂ : l₂.Pairwise (fun a b => S a b = true)) : l₁ = l₂ := by
  haveI : IsAntisymm α (fun a b => S a b = true) :=
    ⟨fun a b hab hba => (hasym a b hab hba).elim⟩
  exact List.eq_of_perm_of_sorted hp h₁ h₂

/-- Iterated stable sorting by a fixed pass list is idempotent. -/
theorem multiPass_idem (cs : List (α → α → Bool))
    (h : ∀ c ∈ cs, TotalB c ∧ TransB c) (l : List α) :
    multiPass cs (multiPass cs l) = multiPass cs l := by
  have hlift : ∀ c' ∈ cs.map liftCmp, TotalB c' ∧ TransB c' := by
    intro c' hc'
    obtain ⟨c, hc, rfl⟩ := List.mem_map.mp hc'
    exact ⟨liftCmp_total c (h c hc).1, liftCmp_trans c (h c hc).2⟩
  have h1 : multiPass cs l = (multiPass (cs.map liftCmp) (decorate l 0)).map Prod.fst := by
    rw [map_fst_multiPass, decorate_map_fst]
  have hout_pw : (multiPass (cs.map liftCmp) (decorate l 0)).Pairwise
      (fun p q => foldLex (cs.map liftCmp) idxLt p q = true) :=
    multiPass_pairwise (cs.map liftCmp) hlift idxLt (decorate l 0)
      (decorate_pairwise_idx l 0)
  have hd2_pw := redecorate_pairwise cs _ hout_pw
  have hd2_idx := decorate_pairwise_idx
    ((multiPass (cs.map liftCmp) (decorate l 0)).map Prod.fst) 0
  have hout2_pw := multiPass_pairwise (cs.map liftCmp) hlift idxLt _ hd2_idx
  have hperm := multiPass_perm (cs.map liftCmp)
    (decorate ((multiPass (cs.map liftCmp) (decorate l 0)).map Prod.fst) 0)
  have heq := eq_of_perm_of_pairwiseB
    (foldLex_asymm (cs.map liftCmp) idxLt idxLt_asymm) hperm hout2_pw hd2_pw
  have h2 : multiPass cs ((multiPass (cs.map liftCmp) (decorate l 0)).map Prod.fst)
      = (multiPass (cs.map liftCmp)
          (decorate ((multiPass (cs.map liftCmp) (decorate l 0)).map Prod.fst) 0)).map
          Prod.fst := by
    have e := map_fst_multiPass cs
      (decorate ((multiPass (cs.map liftCmp) (decorate l 0)).map Prod.fst) 0)
    rw [decorate_map_fst] at e
    exact e.symm
  rw [h1, h2, heq, decorate_map_fst]

/-! ### Properties of the Python sort-key comparators -/

theorem optLe_total [LinearOrder α] : ∀ v w : Option α,
    optLe v w = true ∨ optLe w v = true := by
  intro v w
  cases v <;> cases w <;> simp [optLe, decide_eq_true_eq] <;> exact le_total _ _

theorem optLe_trans [LinearOrder α] : ∀ u v w : Option α,
    optLe u v = true → optLe v w = true → optLe u w = true := by
  intro u v w
  cases u <;> cases v <;> cases w <;>
    simp [optLe, decide_eq_true_eq] <;>
    exact fun h1 h2 => le_trans h1 h2

theorem keyLe_total [LinearOrder α] : ∀ k1 k2 : Bool × Option α,
    keyLe k1 k2 = true ∨ keyLe k2 k1 = true := by
  rintro ⟨b1, v1⟩ ⟨b2, v2⟩
  cases b1 <;> cases b2 <;> simp [keyLe] <;> exact optLe_total _ _

theorem keyLe_trans [LinearOrder α] : ∀ k1 k2 k3 : Bool × Option α,
    keyLe k1 k2 = true → keyLe k2 k3 = true → keyLe k1 k3 = true := by
  rintro ⟨b1, v1⟩ ⟨b2, v2⟩ ⟨b3, v3⟩
  cases b1 <;> cases b2 <;> cases b3 <;> simp [keyLe] <;>
    exact fun h1 h2 => optLe_trans _ _ _ h1 h2

/-- A null key (`x.get(s) is None`) can only precede, in the nonstrict
key order, another null key. -/
theorem keyLe_null_mono [LinearOrder α] (k1 k2 : Bool × Option α)
    (h : keyLe k1 k2 = true) (h1 : k1.1 = true) : k2.1 = true := by
  rcases k1 with ⟨b1, v1⟩
  rcases k2 with ⟨b2, v2⟩
  simp only at h1
  subst h1
  cases b2 with
  | false => simp [keyLe] at h
  | true => rfl

theorem cmpOf_total [LinearOrder α] (s d : String) :
    TotalB (cmpOf s d : Rec α → Rec α → Bool) := by
  intro x y
  unfold cmpOf
  cases hc : (upperStr d == "DESC") <;> simp [hc] <;> exact keyLe_total _ _

theorem cmpOf_trans [LinearOrder α] (s d : String) :
    TransB (cmpOf s d : Rec α → Rec α → Bool) := by
  intro x y z
  unfold cmpOf
  cases hc : (upperStr d == "DESC") <;> simp [hc]
  · exact fun h1 h2 => keyLe_trans _ _ _ h1 h2
  · exact fun h1 h2 => keyLe_trans _ _ _ h2 h1

theorem applySorts_eq_multiPass [LinearOrder α] (sort direction : List String)
    (data : List (Rec α)) :
    applySorts sort direction data =
      multiPass (((sort.zip direction).reverse).map (fun sd => cmpOf sd.1 sd.2)) data := by
  unfold applySorts multiPass
  rw [List.foldl_map]

theorem applySorts_cons [LinearOrder α] (s d : String) (ss ds : List String)
    (data : List (Rec α)) :
    applySorts (s :: ss) (d :: ds) data
      = stableSortBy (cmpOf s d) (applySorts ss ds data) := by
  unfold applySorts
  rw [List.zip_cons_cons, List.reverse_cons, List.foldl_append]
  rfl

/-! ### The claim theorems for the `get_players` sort (C6, C7) -/

/-- Counterexample to claim C6 as stated: in an ascending sort the
record whose field is missing (key `(True, None)`) is placed after the
record with a present value, so null-keyed records do not come first
regardless of direction. -/
theorem get_players_sort_nulls_counterexample :
    applySorts ["v"] ["ASC"] [([] : Rec ℕ), [("v", some 1)]] = [[("v", some 1)], []] ∧
    (pyKey ("v") ([] : Rec ℕ)).1 = true ∧
    (pyKey ("v") ([("v", some 1)] : Rec ℕ)).1 = false ∧
    ¬ ((applySorts ["v"] ["ASC"] [([] : Rec ℕ), [("v", some 1)]]).Pairwise
        (fun x y => (pyKey ("v") y).1 = true → (pyKey ("v") x).1 = true)) := by
  refine ⟨rfl, rfl, rfl, ?_⟩
  intro h
  rw [show applySorts ["v"] ["ASC"] [([] : Rec ℕ), [("v", some 1)]]
    = [[("v", some 1)], []] from rfl] at h
  rw [List.pairwise_cons] at h
  have hx := h.1 [] (List.mem_singleton.mpr rfl) rfl
  exact Bool.noConfusion hx

/-- Claim C6 as amended: null placement depends on the direction of the
primary (first-listed, last-sorted) key: in an `ASC` sort every
null-keyed record comes after all non-null-keyed records, and in a
`DESC` sort before them — `is None` is the dominant key component, with
the direction flip applied to the whole key. -/
theorem get_players_sort_nulls_by_direction [LinearOrder α] (data : List (Rec α))
    (s : String) (srest drest : List String) :
    ((applySorts (s :: srest) (("ASC") :: drest) data).Pairwise
      (fun x y => (pyKey s x).1 = true → (pyKey s y).1 = true)) ∧
    ((applySorts (s :: srest) (("DESC") :: drest) data).Pairwise
      (fun x y => (pyKey s y).1 = true → (pyKey s x).1 = true)) := by
  constructor
  · rw [applySorts_cons]
    have hs := stableSortBy_sorted (cmpOf s ("ASC")) (cmpOf_total s _) (cmpOf_trans s _)
      (applySorts srest drest data)
    refine hs.imp ?_
    intro a b hab hna
    have hab' : keyLe (pyKey s a) (pyKey s b) = true := by
      have hd : (upperStr ("ASC") == "DESC") = false := rfl
      unfold cmpOf at hab
      rw [hd] at hab
      simpa using hab
    exact keyLe_null_mono _ _ hab' hna
  · rw [applySorts_cons]
    have hs := stableSortBy_sorted (cmpOf s ("DESC")) (cmpOf_total s _) (cmpOf_trans s _)
      (applySorts srest drest data)
    refine hs.imp ?_
    intro a b hab hnb
    have hab' : keyLe (pyKey s b) (pyKey s a) = true := by
      have hd : (upperStr ("DESC") == "DESC") = true := rfl
      unfold cmpOf at hab
      rw [hd] at hab
      simpa using hab
    exact keyLe_null_mono _ _ hab' hnb

/-- Claim C7: the multi-key sort of `get_players` is idempotent —
applying the whole sort specification twice gives the same list as
applying it once, for every record list and every sort/direction
specification. -/
theorem get_players_sort_idempotent [LinearOrder α] (sort direction : List String)
    (data : List (Rec α)) :
    applySorts sort direction (applySorts sort direction data)
      = applySorts sort direction data := by
  rw [applySorts_eq_multiPass sort direction data,
    applySorts_eq_multiPass sort direction
      (multiPass (((sort.zip direction).reverse).map (fun sd => cmpOf sd.1 sd.2)) data)]
  apply multiPass_idem
  intro c hc
  obtain ⟨sd, _, rfl⟩ := List.mem_map.mp hc
  exact ⟨cmpOf_total sd.1 sd.2, cmpOf_trans sd.1 sd.2⟩

end NhlScraper

